import Mathlib

/-
Verification of the hybrid-search skill repository: a shallow embedding of
the ingestion pipeline (chunker, security filter, ledger), the embedding
fallback chain, the index rebuild, and the rank-fusion search, together with
theorems settling the specification claims.

Text is modelled as List Char (one element per Unicode code point, matching
Python string indexing and len). Python floats are modelled as exact
rationals; the single square root used by the degrade embedding is modelled
over the reals.
-/

namespace HybridSearch

/-! ## Chunker (src/ingest.py, DocumentChunker) -/

/-- Python regex whitespace class, restricted to the ASCII whitespace
characters that the corpus can contain: space, tab, newline, carriage
return, form feed, vertical tab. -/
def isSpaceChar (c : Char) : Bool :=
  c = ' ' || c = '\t' || c = '\n' || c = '\r' || c = '\x0c' || c = '\x0b'

/-- Sentence-ending characters from the pattern used by chunk_by_sentences:
period, exclamation mark, question mark and their CJK fullwidth forms. -/
def isSentenceEnd (c : Char) : Bool :=
  c = '.' || c = '!' || c = '?' || c = '。' || c = '！' || c = '？'

/-- Python str.strip: drop whitespace from both ends. -/
def stripChars (l : List Char) : List Char :=
  ((l.dropWhile isSpaceChar).reverse.dropWhile isSpaceChar).reverse

/-- One pass of the paragraph splitter, modelling the leftmost greedy
matching of the Python pattern newline, whitespace star, newline used by
chunk_by_paragraphs. pieceR is the current piece (reversed), pendR the
current pending whitespace run (reversed). A maximal whitespace run
containing at least two newlines is a separator: the match extends from the
first newline of the run through the last newline of the run (exactly the
leftmost greedy match of the pattern), whitespace of the run before the
first newline stays with the left piece and whitespace after the last
newline starts the right piece. -/
def splitParasGo (pieceR pendR : List Char) : List Char → List (List Char)
  | [] =>
    if 2 ≤ pendR.count '\n' then
      [pieceR.reverse ++ pendR.reverse.takeWhile (fun c => c ≠ '\n'),
       (pendR.takeWhile (fun c => c ≠ '\n')).reverse]
    else
      [(pendR ++ pieceR).reverse]
  | c :: rest =>
    if isSpaceChar c then
      splitParasGo pieceR (c :: pendR) rest
    else
      if 2 ≤ pendR.count '\n' then
        (pieceR.reverse ++ pendR.reverse.takeWhile (fun c => c ≠ '\n')) ::
          splitParasGo (c :: pendR.takeWhile (fun c => c ≠ '\n')) [] rest
      else
        splitParasGo (c :: (pendR ++ pieceR)) [] rest

/-- re.split of the blank-line pattern over the whole text. -/
def splitParas (text : List Char) : List (List Char) :=
  splitParasGo [] [] text

/-- DocumentChunker.chunk_by_paragraphs: split on blank-line boundaries,
strip each piece, keep the nonempty ones. -/
def chunk_by_paragraphs (text : List Char) : List (List Char) :=
  ((splitParas text).map stripChars).filter (fun p => ¬ p.isEmpty)

/-- One pass of the sentence splitter, modelling re.split of the pattern
lookbehind sentence-end then whitespace plus, as used by
chunk_by_sentences. lastEnd records whether the previously consumed
character was a sentence ender; inSep records that we are inside a
separator whitespace run (the piece before it is frozen in pieceR). -/
def splitSentencesGo (pieceR : List Char) (lastEnd inSep : Bool) :
    List Char → List (List Char)
  | [] => if inSep then [pieceR.reverse, []] else [pieceR.reverse]
  | c :: rest =>
    if inSep then
      if isSpaceChar c then
        splitSentencesGo pieceR lastEnd true rest
      else
        pieceR.reverse :: splitSentencesGo [c] (isSentenceEnd c) false rest
    else
      if lastEnd && isSpaceChar c then
        splitSentencesGo pieceR lastEnd true rest
      else
        splitSentencesGo (c :: pieceR) (isSentenceEnd c) false rest

/-- The sentence list produced inside chunk_by_sentences. -/
def splitSentences (text : List Char) : List (List Char) :=
  splitSentencesGo [] false false text

/-- One step of the greedy sentence-packing loop of chunk_by_sentences:
state is (emitted chunks, current buffer). -/
def sentenceFold (maxLength : ℕ) (st : List (List Char) × List Char)
    (s : List Char) : List (List Char) × List Char :=
  if st.2.length + s.length + 1 ≤ maxLength then
    (st.1, st.2 ++ s ++ [' '])
  else
    (if st.2.isEmpty then st.1 else st.1 ++ [stripChars st.2], s ++ [' '])

/-- DocumentChunker.chunk_by_sentences: split into sentences, then greedily
pack them into buffers, flushing the stripped buffer whenever the next
sentence does not fit, and flushing the final nonempty buffer at the end. -/
def chunk_by_sentences (text : List Char) (maxLength : ℕ) : List (List Char) :=
  let st := (splitSentences text).foldl (sentenceFold maxLength) ([], [])
  if st.2.isEmpty then st.1 else st.1 ++ [stripChars st.2]

/-- A chunk as produced by the ingestion path; doc_id is a hash of
(path, section, text) and is determined by the other fields, so it is not
carried separately. -/
structure Chunk where
  text : List Char
  source : String
  path : String
  sect : String
  deriving DecidableEq

/-- The inner merge loop of chunk_document for a paragraph shorter than
min_chars: keep appending following paragraphs (joined by a blank line)
while the merged length stays within max_chars. Returns the merged text
and the number of extra paragraphs consumed. -/
def mergeRun (maxChars : ℕ) (merged : List Char) :
    List (List Char) → List Char × ℕ
  | [] => (merged, 0)
  | p :: ps =>
    if merged.length + p.length + 2 ≤ maxChars then
      let r := mergeRun maxChars (merged ++ '\n' :: '\n' :: p) ps
      (r.1, r.2 + 1)
    else
      (merged, 0)

/-- The main loop of DocumentChunker.chunk_document over the paragraph
list. i is the current paragraph index (used in section labels), fuel
bounds the number of iterations; with fuel at least the number of
paragraphs it runs to completion. -/
def chunkDocGo (maxChars minChars : ℕ) (source path sect : String) :
    ℕ → ℕ → List (List Char) → List Chunk
  | 0, _, _ => []
  | _, _, [] => []
  | fuel + 1, i, p :: rest =>
    if minChars ≤ p.length ∧ p.length ≤ maxChars then
      ⟨p, source, path, sect ++ "_para_" ++ toString i⟩ ::
        chunkDocGo maxChars minChars source path sect fuel (i + 1) rest
    else if p.length < minChars then
      let m := mergeRun maxChars p rest
      (if minChars ≤ m.1.length then
        [⟨m.1, source, path,
          sect ++ "_merged_" ++ toString i ++ "_" ++ toString (i + m.2)⟩]
      else []) ++
        chunkDocGo maxChars minChars source path sect fuel (i + 1 + m.2)
          (rest.drop m.2)
    else
      ((chunk_by_sentences p maxChars).enum.filterMap fun jt =>
        if minChars ≤ jt.2.length then
          some ⟨jt.2, source, path,
            sect ++ "_sent_" ++ toString i ++ "_" ++ toString jt.1⟩
        else none) ++
        chunkDocGo maxChars minChars source path sect fuel (i + 1) rest

/-- DocumentChunker.chunk_document. -/
def chunkDocument (maxChars minChars : ℕ) (text : List Char)
    (source path sect : String) : List Chunk :=
  let ps := chunk_by_paragraphs text
  chunkDocGo maxChars minChars source path sect ps.length 0 ps

/-- Default max_chars. -/
def MAX_CHARS : ℕ := 2000

/-- Default min_chars. -/
def MIN_CHARS : ℕ := 100

/-! ## Security filter (src/ingest.py, SecurityFilter) -/

/-- A compiled deny pattern is modelled as its matcher: the function that
re search applies to a text, already incorporating the case-insensitive
flag the filter compiles every pattern with. -/
abbrev Matcher : Type := List Char → Bool

/-- SecurityFilter.filter_chunk: scan the compiled patterns in order and
reject the whole chunk on the first match, otherwise return it unchanged. -/
def filterChunk : List Matcher → Chunk → Option Chunk
  | [], c => some c
  | p :: ps, c => if p c.text then none else filterChunk ps c

/-- ASCII lowercasing of a text, used to model case-insensitive matching. -/
def lowerChars (l : List Char) : List Char := l.map Char.toLower

/-- Whether pat occurs as a contiguous substring of t. -/
def containsSub (pat : List Char) : List Char → Bool
  | [] => pat.isEmpty
  | c :: rest => pat.isPrefixOf (c :: rest) || containsSub pat rest

/-- Case-insensitive literal-substring matcher: the compiled form of the
plain-word deny patterns (for example secret or password) under the
ignore-case flag. -/
def ciMatcher (pat : List Char) : Matcher :=
  fun t => containsSub (lowerChars pat) (lowerChars t)

/-! ## Fusion search (src/search.py, HybridSearcher.search) -/

/-- HybridSearcher rrf score: one over k plus rank. -/
def rrfScore (rank k : ℕ) : ℚ := 1 / ((k : ℚ) + (rank : ℚ))

/-- Lookup in the Python dict built by enumerating a doc-id list with
one-based ranks; on duplicate ids the later binding wins, as in a dict
comprehension. i is the zero-based index of the head of the remaining
list. -/
def dictRankAux (i : ℕ) (d : String) : List String → Option ℕ
  | [] => none
  | x :: xs =>
    match dictRankAux (i + 1) d xs with
    | some r => some r
    | none => if x = d then some (i + 1) else none

/-- The rank dict of a result list, as built in HybridSearcher.search. -/
def dictRank (ids : List String) (d : String) : Option ℕ :=
  dictRankAux 0 d ids

/-- Written from the specification text, for comparison with the code: the
one-based rank of a document in a result list, the position of its first
occurrence. -/
def specRank (d : String) : List String → ℕ
  | [] => 1
  | x :: xs => if x = d then 1 else specRank d xs + 1

/-- The fused score of one doc id, mirroring the accumulation in
HybridSearcher.search: start from zero, add the weighted rrf term for each
list the document appears in. -/
def fusedScore (ftsIds vecIds : List String) (wFts wVec : ℚ) (rrfK : ℕ)
    (d : String) : ℚ :=
  let s : ℚ := 0
  let s := match dictRank ftsIds d with
    | some r => s + wFts * rrfScore r rrfK
    | none => s
  match dictRank vecIds d with
  | some r => s + wVec * rrfScore r rrfK
  | none => s

/-- Stable descending insertion used to model the stable Python list sort
with reverse comparison on scores: an element moves past exactly the
strictly greater scores, so elements with equal scores keep their relative
input order. -/
def insertDesc (x : String × ℚ) : List (String × ℚ) → List (String × ℚ)
  | [] => [x]
  | y :: ys => if x.2 < y.2 then y :: insertDesc x ys else x :: y :: ys

/-- Stable sort by score descending (the semantics of the Python stable
sort with reverse equal true on the score key). -/
def sortByScoreDesc : List (String × ℚ) → List (String × ℚ)
  | [] => []
  | x :: xs => insertDesc x (sortByScoreDesc xs)

/-- The combined candidate list of HybridSearcher.search: iterate over the
union of both candidate sets in the (unspecified) set-iteration order
given by setOrder, score each id, and keep those whose document record
exists in the store (docOk models get_document_by_id returning a record). -/
def searchCombined (docOk : String → Bool) (setOrder ftsIds vecIds :
    List String) (wFts wVec : ℚ) (rrfK : ℕ) : List (String × ℚ) :=
  setOrder.filterMap fun d =>
    if docOk d then some (d, fusedScore ftsIds vecIds wFts wVec rrfK d)
    else none

/-- HybridSearcher.search after both retrievals: fuse, sort descending by
score, truncate to top_k. -/
def searchTop (docOk : String → Bool) (setOrder ftsIds vecIds : List String)
    (wFts wVec : ℚ) (rrfK topK : ℕ) : List (String × ℚ) :=
  (sortByScoreDesc
    (searchCombined docOk setOrder ftsIds vecIds wFts wVec rrfK)).take topK

/-- A list is a legitimate iteration order of the Python set union of the
two candidate lists: no repetitions, and exactly the ids present in either
list. -/
def IsUnionOrder (setOrder ftsIds vecIds : List String) : Prop :=
  setOrder.Nodup ∧ ∀ d, d ∈ setOrder ↔ d ∈ ftsIds ∨ d ∈ vecIds

/-! ## Index rebuild (src/search.py, HybridSearcher.rebuild_index) -/

/-- HybridSearcher.rebuild_index over the stored (doc id, vector) rows.
Zero-length vectors are skipped; the remaining vectors are stacked, which
raises (modelled by the error case) unless they all share one dimension;
on success the flat index holds exactly the kept vectors in order and the
ordinal map enumerates their doc ids. A none value models the early
returns when there are no rows or no nonempty vectors. -/
def rebuildIndex (rows : List (String × List ℚ)) :
    Except String (Option (List (List ℚ) × List (ℕ × String))) :=
  match rows with
  | [] => .ok none
  | _ :: _ =>
    match rows.filter (fun r => !r.2.isEmpty) with
    | [] => .ok none
    | (_, v0) :: _ =>
      if (rows.filter (fun r => !r.2.isEmpty)).all
          (fun r => r.2.length = v0.length) then
        .ok (some ((rows.filter (fun r => !r.2.isEmpty)).map (fun r => r.2),
          (rows.filter (fun r => !r.2.isEmpty)).enum.map
            fun p => (p.1, p.2.1)))
      else
        .error "vstack: all the input array dimensions must match"

/-! ## Embedding service (src/embed.py, DashScopeEmbedder) -/

/-- Python dict get on an association list maintained by assocSet. -/
def assocGet {β : Type} (l : List (String × β)) (k : String) : Option β :=
  (l.find? fun e => e.1 = k).map fun e => e.2

/-- Python dict assignment on an association list: overwrite in place if
the key is present, append otherwise. -/
def assocSet {β : Type} (l : List (String × β)) (k : String) (v : β) :
    List (String × β) :=
  if l.any (fun e => e.1 = k) then
    l.map fun e => if e.1 = k then (k, v) else e
  else
    l ++ [(k, v)]

/-- The degrade-vector values before normalization, from
DashScopeEmbedder make degrade embedding: dims is clamped below by 8, and
entry i is byte i mod 32 of the sha256 digest of the content hash, mapped
affinely from 0..255 into the interval minus one to one. raw is the digest
byte list. -/
def degradeVals (degradeDims : ℕ) (raw : List ℕ) : List ℚ :=
  (List.range (max 8 degradeDims)).map fun i =>
    ((raw.getD (i % raw.length) 0 : ℚ) / 255) * 2 - 1

/-- Sum of squares of a rational list, the square of the Euclidean norm. -/
def sumSq (l : List ℚ) : ℚ := (l.map fun v => v * v).sum

/-- The full degrade embedding: values divided by the Euclidean norm, with
the norm replaced by one when it is zero (the Python or fallback). -/
noncomputable def makeDegradeEmbedding (degradeDims : ℕ) (raw : List ℕ) :
    List ℝ :=
  let vals := degradeVals degradeDims raw
  let n : ℝ := Real.sqrt ((sumSq vals : ℚ) : ℝ)
  let n := if n = 0 then 1 else n
  vals.map fun v => ((v : ℚ) : ℝ) / n

/-- Result of one get_embedding call: the returned vector if any, the
cache afterwards, whether the remote endpoint was contacted, and whether
the local model was consulted. -/
structure EmbedResult (α : Type) where
  result : Option (List α)
  cache : List (String × List α)
  remoteAttempted : Bool
  localAttempted : Bool
  deriving DecidableEq

/-- The shared tail of the fallback chain: local model (if enabled) then
degrade vector. localModel is none when loading the local embedder failed;
a local embedding equal to the empty list is falsy and is not used, as in
the code. Successful local and degrade vectors are written to the cache.
mkDegrade abstracts make degrade embedding applied to the text hash;
remoteTried records whether the remote endpoint was contacted before
falling back. -/
def fallbackChain {α : Type} (enableLocal : Bool)
    (localModel : Option (String → List α)) (enableDegrade : Bool)
    (mkDegrade : String → List α) (cache : List (String × List α))
    (text h : String) (remoteTried : Bool) : EmbedResult α :=
  let localResult : Option (List α) :=
    if enableLocal then
      match localModel with
      | some m => if (m text).isEmpty then none else some (m text)
      | none => none
    else none
  match localResult with
  | some e => ⟨some e, assocSet cache h e, remoteTried, enableLocal⟩
  | none =>
    if enableDegrade then
      ⟨some (mkDegrade h), assocSet cache h (mkDegrade h), remoteTried,
        enableLocal⟩
    else
      ⟨none, cache, remoteTried, enableLocal⟩

/-- DashScopeEmbedder.get_embedding: cache hit first; with no credential
go straight to the fallback chain; otherwise call the remote endpoint
(remote text is the response after all retries, none when every attempt
failed) and on failure fall back. -/
def getEmbedding {α : Type} (apiKey : Option String) (enableLocal : Bool)
    (localModel : Option (String → List α)) (enableDegrade : Bool)
    (mkDegrade : String → List α) (remote : String → Option (List α))
    (hashFn : String → String) (cache : List (String × List α))
    (text : String) : EmbedResult α :=
  let h := hashFn text
  match assocGet cache h with
  | some e => ⟨some e, cache, false, false⟩
  | none =>
    match apiKey with
    | none =>
      fallbackChain enableLocal localModel enableDegrade mkDegrade cache
        text h false
    | some _ =>
      match remote text with
      | some emb => ⟨some emb, assocSet cache h emb, true, false⟩
      | none =>
        fallbackChain enableLocal localModel enableDegrade mkDegrade cache
          text h true

/-! ## Ingestion (src/ingest.py, Ingestor) -/

/-- A ledger signature: integer mtime and size, as stored by
file signature. -/
abbrev Sig : Type := ℤ × ℤ

/-- The persisted ledger: a path-keyed map, modelled as an association
list maintained by assocSet. -/
abbrev Ledger : Type := List (String × Sig)

/-- A source file as seen by one ingestion run: its path, its stat data
(mtime as the raw fractional timestamp, size in bytes), and the content
the read returns, none when opening or reading the file raises. -/
structure SrcFile where
  path : String
  mtime : ℚ
  size : ℤ
  content : Option (List Char)
  deriving DecidableEq

/-- Ingestor file signature: integer-truncated mtime plus size. -/
def fileSig (f : SrcFile) : Sig := (Int.floor f.mtime, f.size)

/-- Ingestor.should_process_file. ledger is the ledger loaded at startup,
now the current timestamp in seconds; a since window is given in days. -/
def shouldProcessFile (ledger : Ledger) (now : ℚ) (f : SrcFile)
    (sinceDays : Option ℚ) (fullScan : Bool) : Bool :=
  if fullScan then true
  else
    match sinceDays with
    | some d => decide (now - d * 86400 < f.mtime)
    | none => decide (assocGet ledger f.path ≠ some (fileSig f))

/-- The mutable counters of Ingestor.stats. -/
structure IngestStats where
  filesScanned : ℕ
  filesChanged : ℕ
  chunksGenerated : ℕ
  chunksFiltered : ℕ
  chunksAccepted : ℕ
  deriving DecidableEq

/-- The zero-initialized statistics. -/
def initStats : IngestStats := ⟨0, 0, 0, 0, 0⟩

/-- Path stem as used for the section prefix: the final path component
with its last extension removed, as in pathlib Path stem (a leading dot
with no later dot is not an extension). -/
def pathStem (p : String) : String :=
  let name := (p.data.reverse.takeWhile fun c => c ≠ '/').reverse
  match name.reverse.dropWhile (fun c => c ≠ '.') with
  | [] => String.mk name
  | _ :: rest => if rest.isEmpty then String.mk name else String.mk rest.reverse

/-- One iteration of the chunk-screening loop inside
Ingestor.process_file: count the generated chunk, then either count it as
filtered and drop it, or count it as accepted and keep it. -/
def screenStep (patterns : List Matcher) (acc : IngestStats × List Chunk)
    (c : Chunk) : IngestStats × List Chunk :=
  let st := { acc.1 with chunksGenerated := acc.1.chunksGenerated + 1 }
  match filterChunk patterns c with
  | none => ({ st with chunksFiltered := st.chunksFiltered + 1 }, acc.2)
  | some kept =>
    ({ st with chunksAccepted := st.chunksAccepted + 1 }, acc.2 ++ [kept])

/-- The chunk-screening loop inside Ingestor.process_file. -/
def screenChunks (patterns : List Matcher) (st : IngestStats)
    (chunks : List Chunk) : IngestStats × List Chunk :=
  chunks.foldl (screenStep patterns) (st, [])

/-- Ingestor.process_file: on a read failure log and produce nothing;
otherwise count the file, record its signature in the next ledger, chunk
the content and screen the chunks. -/
def processFile (patterns : List Matcher) (st : IngestStats)
    (nextLedger : Ledger) (f : SrcFile) (source : String) :
    IngestStats × Ledger × List Chunk :=
  match f.content with
  | none => (st, nextLedger, [])
  | some content =>
    let st := { st with filesScanned := st.filesScanned + 1,
                        filesChanged := st.filesChanged + 1 }
    let nextLedger := assocSet nextLedger f.path (fileSig f)
    let chunks := chunkDocument MAX_CHARS MIN_CHARS content source f.path
      (pathStem f.path)
    let r := screenChunks patterns st chunks
    (r.1, nextLedger, r.2)

/-- The outcome of one Ingestor.ingest run: the accepted chunks, the final
statistics, the in-memory next ledger, and the ledger file on disk after
the run (disk is the pre-run file content when nothing is written). -/
structure IngestOutcome where
  chunks : List Chunk
  stats : IngestStats
  nextLedger : Ledger
  disk : Option Ledger
  deriving DecidableEq

/-- The per-file body of the scan loop in Ingestor.ingest: record the
current signature in the next ledger unconditionally, then decide whether
to process; in dry-run mode changed files are only counted. -/
def ingestStep (patterns : List Matcher) (ledger0 : Ledger) (now : ℚ)
    (sinceDays : Option ℚ) (fullScan dryRun : Bool)
    (acc : IngestStats × Ledger × List Chunk) (fs : SrcFile × String) :
    IngestStats × Ledger × List Chunk :=
  let (st, nextLedger, chunks) := acc
  let f := fs.1
  let nextLedger := assocSet nextLedger f.path (fileSig f)
  if ¬ shouldProcessFile ledger0 now f sinceDays fullScan then
    ({ st with filesScanned := st.filesScanned + 1 }, nextLedger, chunks)
  else if dryRun then
    ({ st with filesScanned := st.filesScanned + 1,
               filesChanged := st.filesChanged + 1 }, nextLedger, chunks)
  else
    let r := processFile patterns st nextLedger f fs.2
    (r.1, r.2.1, chunks ++ r.2.2)

/-- Ingestor.ingest over the globbed files of all requested sources (each
paired with its source tag). After the scan, ledger entries under a
tracked root that were neither seen this run nor still exist on disk are
pruned; the next ledger is then saved to disk unless this is a dry run. -/
def ingestRun (patterns : List Matcher) (trackedRoots : List String)
    (existsOnDisk : String → Bool) (files : List (SrcFile × String))
    (ledger0 : Ledger) (disk0 : Option Ledger) (now : ℚ)
    (sinceDays : Option ℚ) (fullScan dryRun : Bool) : IngestOutcome :=
  let r := files.foldl
    (ingestStep patterns ledger0 now sinceDays fullScan dryRun)
    (initStats, ledger0, [])
  let seen := files.map fun fs => fs.1.path
  let pruned := r.2.1.filter fun e =>
    ¬ (trackedRoots.any (fun root => e.1.startsWith root) &&
       !(seen.contains e.1) && !(existsOnDisk e.1))
  { chunks := r.2.2
    stats := r.1
    nextLedger := pruned
    disk := if dryRun then disk0 else some pruned }

/-! ## Helper lemmas -/

theorem filterChunk_eq_some {patterns : List Matcher} {c d : Chunk}
    (h : filterChunk patterns c = some d) :
    d = c ∧ ∀ p ∈ patterns, p c.text = false := by
  induction patterns with
  | nil =>
    simp only [filterChunk] at h
    exact ⟨(Option.some_injective _ h).symm, by simp⟩
  | cons p ps ih =>
    simp only [filterChunk] at h
    by_cases hp : p c.text
    · simp [hp] at h
    · simp only [hp, if_false] at h
      rcases ih h with ⟨hd, hall⟩
      refine ⟨hd, ?_⟩
      intro q hq
      rcases List.mem_cons.mp hq with rfl | hq'
      · exact Bool.eq_false_iff.mpr hp
      · exact hall q hq'

theorem filterChunk_some_of_no_match {patterns : List Matcher} {c : Chunk}
    (h : ∀ p ∈ patterns, p c.text = false) :
    filterChunk patterns c = some c := by
  induction patterns with
  | nil => rfl
  | cons p ps ih =>
    have hp : p c.text = false := h p (List.mem_cons_self _ _)
    simp only [filterChunk, hp, if_false, Bool.false_eq_true]
    exact ih fun q hq => h q (List.mem_cons_of_mem _ hq)

theorem filterChunk_none_of_match {patterns : List Matcher} {c : Chunk}
    (h : ∃ p ∈ patterns, p c.text = true) :
    filterChunk patterns c = none := by
  induction patterns with
  | nil => simp at h
  | cons p ps ih =>
    simp only [filterChunk]
    by_cases hp : p c.text
    · simp [hp]
    · simp only [hp, if_false]
      rcases h with ⟨q, hq, hqt⟩
      rcases List.mem_cons.mp hq with rfl | hq'
      · exact absurd hqt (by simpa using hp)
      · exact ih ⟨q, hq', hqt⟩

theorem screenFold_mem {patterns : List Matcher} :
    ∀ (chunks : List Chunk) (st : IngestStats) (l0 : List Chunk) (c : Chunk),
      c ∈ (chunks.foldl (screenStep patterns) (st, l0)).2 →
      c ∈ l0 ∨ ∃ d ∈ chunks, filterChunk patterns d = some c := by
  intro chunks
  induction chunks with
  | nil => intro st l0 c h; exact Or.inl h
  | cons x xs ih =>
    intro st l0 c h
    simp only [List.foldl_cons] at h
    rcases hx : filterChunk patterns x with _ | kept
    · simp only [screenStep, hx] at h
      rcases ih _ _ _ h with h0 | ⟨d, hd, hdc⟩
      · exact Or.inl h0
      · exact Or.inr ⟨d, List.mem_cons_of_mem _ hd, hdc⟩
    · simp only [screenStep, hx] at h
      rcases ih _ _ _ h with h0 | ⟨d, hd, hdc⟩
      · rcases List.mem_append.mp h0 with h1 | h1
        · exact Or.inl h1
        · rcases List.mem_singleton.mp h1 with rfl
          exact Or.inr ⟨x, List.mem_cons_self _ _, hx⟩
      · exact Or.inr ⟨d, List.mem_cons_of_mem _ hd, hdc⟩

/-! ## Claim theorems -/

/-- C2: the security filter returns a chunk unchanged exactly when no
configured deny pattern matches its text (each compiled matcher already
carries the ignore-case flag), rejects it exactly when some pattern
matches, and consequently every chunk the ingestion path yields for
persistence matches no configured deny pattern. -/
theorem security_filter_blocks_matching_chunks :
    (∀ (patterns : List Matcher) (c : Chunk),
      (filterChunk patterns c = some c ↔ ∀ p ∈ patterns, p c.text = false) ∧
      (filterChunk patterns c = none ↔ ∃ p ∈ patterns, p c.text = true)) ∧
    (∀ (patterns : List Matcher) (st : IngestStats) (nextLedger : Ledger)
      (f : SrcFile) (source : String) (c : Chunk),
      c ∈ (processFile patterns st nextLedger f source).2.2 →
      ∀ p ∈ patterns, p c.text = false) := by
  constructor
  · intro patterns c
    constructor
    · constructor
      · intro h
        exact (filterChunk_eq_some h).2
      · exact filterChunk_some_of_no_match
    · constructor
      · intro h
        by_contra hno
        push_neg at hno
        have hall : ∀ p ∈ patterns, p c.text = false := by
          intro p hp
          simpa using hno p hp
        rw [filterChunk_some_of_no_match hall] at h
        cases h
      · exact filterChunk_none_of_match
  · intro patterns st nextLedger f source c hc
    rcases hf : f.content with _ | content
    · simp [processFile, hf] at hc
    · simp only [processFile, hf] at hc
      rcases screenFold_mem _ _ _ _ hc with h0 | ⟨d, _, hdc⟩
      · cases h0
      · rcases filterChunk_eq_some hdc with ⟨rfl, hall⟩
        exact hall

/-- C9: a dry run never writes the ledger file: the on-disk ledger after
the run is whatever it was before the run, for every input. -/
theorem dry_run_leaves_disk_ledger_unchanged :
    ∀ (patterns : List Matcher) (trackedRoots : List String)
      (existsOnDisk : String → Bool) (files : List (SrcFile × String))
      (ledger0 : Ledger) (disk0 : Option Ledger) (now : ℚ)
      (sinceDays : Option ℚ) (fullScan : Bool),
      (ingestRun patterns trackedRoots existsOnDisk files ledger0 disk0 now
        sinceDays fullScan true).disk = disk0 := by
  intros
  rfl

/-- C8: the shouldProcess decision: full scan processes everything; a
since window processes exactly the files whose mtime is after now minus
the window; otherwise a file is processed exactly when its current
signature differs from the recorded one, a missing entry counting as
changed; hence an unchanged file re-ingested without full scan or window
contributes zero new chunks, and a signature change causes reprocessing. -/
theorem should_process_file_decision :
    (∀ (ledger : Ledger) (now : ℚ) (f : SrcFile) (sinceDays : Option ℚ),
      shouldProcessFile ledger now f sinceDays true = true) ∧
    (∀ (ledger : Ledger) (now : ℚ) (f : SrcFile) (d : ℚ),
      (shouldProcessFile ledger now f (some d) false = true ↔
        now - d * 86400 < f.mtime)) ∧
    (∀ (ledger : Ledger) (now : ℚ) (f : SrcFile),
      (shouldProcessFile ledger now f none false = true ↔
        assocGet ledger f.path ≠ some (fileSig f))) ∧
    (∀ (ledger : Ledger) (now : ℚ) (f : SrcFile),
      assocGet ledger f.path = none →
      shouldProcessFile ledger now f none false = true) ∧
    (∀ (patterns : List Matcher) (trackedRoots : List String)
      (existsOnDisk : String → Bool) (f : SrcFile) (source : String)
      (ledger0 : Ledger) (disk0 : Option Ledger) (now : ℚ),
      assocGet ledger0 f.path = some (fileSig f) →
      (ingestRun patterns trackedRoots existsOnDisk [(f, source)] ledger0
        disk0 now none false false).chunks = [] ∧
      (ingestRun patterns trackedRoots existsOnDisk [(f, source)] ledger0
        disk0 now none false false).stats.filesChanged = 0) := by
  refine ⟨?_, ?_, ?_, ?_, ?_⟩
  · intro ledger now f sinceDays
    rfl
  · intro ledger now f d
    simp [shouldProcessFile]
  · intro ledger now f
    simp [shouldProcessFile]
  · intro ledger now f h
    simp [shouldProcessFile, h]
  · intro patterns trackedRoots existsOnDisk f source ledger0 disk0 now h
    have hsp : shouldProcessFile ledger0 now f none false = false := by
      simp [shouldProcessFile, h]
    constructor
    · simp [ingestRun, ingestStep, hsp]
    · simp [ingestRun, ingestStep, hsp, initStats]

set_option maxRecDepth 4000 in
/-- Witness for the security-filter theorem: a 120-character chunk that a
run of the ingestion path yields matches none of the configured patterns,
here the compiled case-insensitive pattern for the word secret. -/
theorem security_filter_blocks_matching_chunks_witness :
    ciMatcher ('s' :: 'e' :: 'c' :: 'r' :: 'e' :: 't' :: [])
      (List.replicate 120 'b') = false :=
  security_filter_blocks_matching_chunks.2
    [ciMatcher ('s' :: 'e' :: 'c' :: 'r' :: 'e' :: 't' :: [])] initStats []
    ⟨"n.md", 1, 2, some (List.replicate 120 'b')⟩ "notes"
    ⟨List.replicate 120 'b', "notes", "n.md", "n_para_0"⟩ (by decide)
    (ciMatcher ('s' :: 'e' :: 'c' :: 'r' :: 'e' :: 't' :: [])) (by simp)

set_option maxRecDepth 4000 in
/-- Witness for the shouldProcess theorem: re-ingesting a file whose
recorded signature equals its current signature, with no full scan and no
window, yields no chunks. -/
theorem should_process_file_decision_witness :
    (ingestRun [] [] (fun _ => true) [(⟨"a.md", 3, 9, some []⟩, "notes")]
      [("a.md", ((3 : ℤ), (9 : ℤ)))] none 0 none false false).chunks = [] :=
  (should_process_file_decision.2.2.2.2 [] [] (fun _ => true)
    ⟨"a.md", 3, 9, some []⟩ "notes" [("a.md", ((3 : ℤ), (9 : ℤ)))] none 0
    (by decide)).1

theorem assocGet_map_overwrite {β : Type} {l : List (String × β)}
    {k : String} {v : β} (h : l.any (fun e => e.1 = k) = true) :
    assocGet (l.map fun e => if e.1 = k then (k, v) else e) k = some v := by
  induction l with
  | nil => simp at h
  | cons e es ih =>
    by_cases he : e.1 = k
    · simp [assocGet, he, List.find?]
    · have hes : es.any (fun e => e.1 = k) = true := by
        simpa [he] using h
      simpa [assocGet, he, List.find?] using ih hes

theorem assocGet_append_new {β : Type} {l : List (String × β)}
    {k : String} {v : β} (h : l.any (fun e => e.1 = k) = false) :
    assocGet (l ++ [(k, v)]) k = some v := by
  induction l with
  | nil => simp [assocGet, List.find?]
  | cons e es ih =>
    rw [List.any_cons] at h
    have he : decide (e.1 = k) = false := (Bool.or_eq_false_iff.mp h).1
    have hes : es.any (fun e => e.1 = k) = false := (Bool.or_eq_false_iff.mp h).2
    simpa [assocGet, List.find?, he] using ih hes

theorem assocGet_set_self {β : Type} (l : List (String × β)) (k : String)
    (v : β) : assocGet (assocSet l k v) k = some v := by
  unfold assocSet
  by_cases h : l.any (fun e => e.1 = k) = true
  · simp only [h, if_true]
    exact assocGet_map_overwrite h
  · have h' : l.any (fun e => e.1 = k) = false := by
      cases hb : l.any (fun e => e.1 = k)
      · rfl
      · exact absurd hb h
    simp only [h', Bool.false_eq_true, if_false]
    exact assocGet_append_new h'

theorem fallbackChain_degrade {α : Type} {enableLocal : Bool}
    {localModel : Option (String → List α)} {text : String}
    (mkDegrade : String → List α) (cache : List (String × List α))
    (h : String) (remoteTried : Bool)
    (hl : enableLocal = false ∨ localModel = none ∨
      ∃ m, localModel = some m ∧ (m text).isEmpty = true) :
    fallbackChain enableLocal localModel true mkDegrade cache text h
      remoteTried =
      ⟨some (mkDegrade h), assocSet cache h (mkDegrade h), remoteTried,
        enableLocal⟩ := by
  rcases hl with rfl | rfl | ⟨m, rfl, hm⟩
  · rfl
  · cases enableLocal <;> rfl
  · cases enableLocal
    · rfl
    · simp [fallbackChain, hm]

/-- C10: a degrade-tier vector is always written into the embedding cache
under the text hash, and every later get_embedding call for the same text
returns that cached vector at once, contacting neither the remote endpoint
nor the local model, even when a credential or model is now available. -/
theorem degrade_vector_cached_then_short_circuits :
    ∀ (α : Type) (apiKey : Option String) (enableLocal : Bool)
      (localModel : Option (String → List α)) (mkDegrade : String → List α)
      (remote : String → Option (List α)) (hashFn : String → String)
      (cache : List (String × List α)) (text : String),
      assocGet cache (hashFn text) = none →
      (apiKey = none ∨ remote text = none) →
      (enableLocal = false ∨ localModel = none ∨
        ∃ m, localModel = some m ∧ (m text).isEmpty = true) →
      (getEmbedding apiKey enableLocal localModel true mkDegrade remote
          hashFn cache text).result = some (mkDegrade (hashFn text)) ∧
      assocGet (getEmbedding apiKey enableLocal localModel true mkDegrade
          remote hashFn cache text).cache (hashFn text) =
        some (mkDegrade (hashFn text)) ∧
      (∀ (apiKey2 : Option String) (enableLocal2 : Bool)
        (localModel2 : Option (String → List α)) (enableDegrade2 : Bool)
        (mkDegrade2 : String → List α)
        (remote2 : String → Option (List α)),
        getEmbedding apiKey2 enableLocal2 localModel2 enableDegrade2
          mkDegrade2 remote2 hashFn
          (getEmbedding apiKey enableLocal localModel true mkDegrade remote
            hashFn cache text).cache text =
          ⟨some (mkDegrade (hashFn text)),
            (getEmbedding apiKey enableLocal localModel true mkDegrade
              remote hashFn cache text).cache, false, false⟩) := by
  intro α apiKey enableLocal localModel mkDegrade remote hashFn cache text
    hmiss hfail hlocal
  have hrun : getEmbedding apiKey enableLocal localModel true mkDegrade
      remote hashFn cache text =
      ⟨some (mkDegrade (hashFn text)),
        assocSet cache (hashFn text) (mkDegrade (hashFn text)),
        apiKey.isSome, enableLocal⟩ := by
    rcases apiKey with _ | key
    · simp only [getEmbedding, hmiss]
      exact fallbackChain_degrade _ _ _ _ hlocal
    · have hr : remote text = none := by
        rcases hfail with h | h
        · cases h
        · exact h
      simp only [getEmbedding, hmiss, hr]
      exact fallbackChain_degrade _ _ _ _ hlocal
  refine ⟨?_, ?_, ?_⟩
  · rw [hrun]
  · rw [hrun]
    exact assocGet_set_self _ _ _
  · intro apiKey2 enableLocal2 localModel2 enableDegrade2 mkDegrade2 remote2
    have hhit : assocGet (getEmbedding apiKey enableLocal localModel true
        mkDegrade remote hashFn cache text).cache (hashFn text) =
        some (mkDegrade (hashFn text)) := by
      rw [hrun]
      exact assocGet_set_self _ _ _
    generalize hc : (getEmbedding apiKey enableLocal localModel true
      mkDegrade remote hashFn cache text).cache = c2 at hhit ⊢
    simp only [getEmbedding, hhit]

/-- Witness for the degrade-caching theorem, at a concrete rational-valued
instantiation with no credential, no local model and an empty cache. -/
theorem degrade_vector_cached_then_short_circuits_witness :
    (@getEmbedding ℚ none false none true (fun _ => [1]) (fun _ => none)
      (fun s => s) [] "t").result = some [1] :=
  (degrade_vector_cached_then_short_circuits ℚ none false none
    (fun _ => [1]) (fun _ => none) (fun s => s) [] "t" rfl (Or.inl rfl)
    (Or.inl rfl)).1

theorem sumSq_pos_of_ne_zero {l : List ℚ} (h : ∃ v ∈ l, v ≠ 0) :
    0 < sumSq l := by
  rcases h with ⟨v, hv, hvne⟩
  have hmem : v * v ∈ l.map (fun v => v * v) := List.mem_map_of_mem _ hv
  have hle : v * v ≤ (l.map (fun v => v * v)).sum := by
    refine List.single_le_sum ?_ _ hmem
    intro x hx
    rcases List.mem_map.mp hx with ⟨y, _, rfl⟩
    exact mul_self_nonneg y
  have hpos : 0 < v * v := mul_self_pos.mpr hvne
  have : 0 < (l.map (fun v => v * v)).sum := lt_of_lt_of_le hpos hle
  simpa [sumSq] using this

theorem degradeVals_length (degradeDims : ℕ) (raw : List ℕ) :
    (degradeVals degradeDims raw).length = max 8 degradeDims := by
  simp [degradeVals]

theorem degradeVals_mem_shape {degradeDims : ℕ} {raw : List ℕ}
    (hraw : raw ≠ []) {v : ℚ} (hv : v ∈ degradeVals degradeDims raw) :
    ∃ b ∈ raw, v = ((b : ℚ) / 255) * 2 - 1 := by
  rcases List.mem_map.mp hv with ⟨i, _, rfl⟩
  have hlen : 0 < raw.length := List.length_pos.mpr hraw
  have hmod : i % raw.length < raw.length := Nat.mod_lt _ hlen
  refine ⟨raw.getD (i % raw.length) 0, ?_, rfl⟩
  rw [List.getD_eq_getElem raw 0 hmod]
  exact List.getElem_mem _

theorem degradeVals_ne_zero {degradeDims : ℕ} {raw : List ℕ}
    (hraw : raw ≠ []) : ∀ v ∈ degradeVals degradeDims raw, v ≠ 0 := by
  intro v hv
  rcases degradeVals_mem_shape hraw hv with ⟨b, _, rfl⟩
  intro h0
  have h1 : (b : ℚ) * 2 = 255 := by
    field_simp at h0
    linarith
  have h2 : ((2 * b : ℕ) : ℚ) = ((255 : ℕ) : ℚ) := by
    push_cast
    linarith
  have h3 : 2 * b = 255 := Nat.cast_injective h2
  omega

theorem degradeVals_ne_nil (degradeDims : ℕ) (raw : List ℕ) :
    degradeVals degradeDims raw ≠ [] := by
  have h : (degradeVals degradeDims raw).length ≠ 0 := by
    rw [degradeVals_length]
    omega
  exact fun hc => h (by rw [hc]; rfl)

theorem sumSq_cast (l : List ℚ) :
    ((sumSq l : ℚ) : ℝ) = (l.map fun v => ((v : ℚ) : ℝ) ^ 2).sum := by
  induction l with
  | nil => simp [sumSq]
  | cons v vs ih =>
    simp only [sumSq, List.map_cons, List.sum_cons] at ih ⊢
    push_cast
    rw [← ih]
    ring_nf
    push_cast
    ring

/-- C7: when the remote endpoint fails or no credential exists and the
local fallback is disabled or unavailable, the degrade tier returns the
vector derived from the digest bytes of the content hash; that vector has
dimension max of 8 and the configured dims, its raw values lie in the
closed interval from minus one to one, it has unit Euclidean norm, and
two runs over any caches that miss produce the identical vector. -/
theorem degrade_embedding_unit_norm_deterministic :
    ∀ (degradeDims : ℕ) (raw : List ℕ),
      raw ≠ [] → (∀ b ∈ raw, b ≤ 255) →
      (makeDegradeEmbedding degradeDims raw).length = max 8 degradeDims ∧
      ((makeDegradeEmbedding degradeDims raw).map fun x => x ^ 2).sum = 1 ∧
      (∀ v ∈ degradeVals degradeDims raw, -1 ≤ v ∧ v ≤ 1) ∧
      (∀ (shaBytes : String → List ℕ) (hashFn : String → String)
        (localModel : Option (String → List ℝ)) (apiKey : Option String)
        (remote : String → Option (List ℝ))
        (cache1 cache2 : List (String × List ℝ)) (text : String),
        assocGet cache1 (hashFn text) = none →
        assocGet cache2 (hashFn text) = none →
        (apiKey = none ∨ remote text = none) →
        (getEmbedding apiKey false localModel true
            (fun h => makeDegradeEmbedding degradeDims (shaBytes h)) remote
            hashFn cache1 text).result =
          some (makeDegradeEmbedding degradeDims (shaBytes (hashFn text))) ∧
        (getEmbedding apiKey false localModel true
            (fun h => makeDegradeEmbedding degradeDims (shaBytes h)) remote
            hashFn cache1 text).result =
          (getEmbedding apiKey false localModel true
            (fun h => makeDegradeEmbedding degradeDims (shaBytes h)) remote
            hashFn cache2 text).result) := by
  intro degradeDims raw hraw hbytes
  have hSpos : 0 < sumSq (degradeVals degradeDims raw) := by
    apply sumSq_pos_of_ne_zero
    rcases List.exists_mem_of_ne_nil _ (degradeVals_ne_nil degradeDims raw)
      with ⟨v, hv⟩
    exact ⟨v, hv, degradeVals_ne_zero hraw v hv⟩
  have hScast : (0 : ℝ) < ((sumSq (degradeVals degradeDims raw) : ℚ) : ℝ) :=
    by exact_mod_cast hSpos
  have hsqrtpos : 0 < Real.sqrt ((sumSq (degradeVals degradeDims raw) : ℚ) : ℝ) :=
    Real.sqrt_pos.mpr hScast
  have hne : Real.sqrt ((sumSq (degradeVals degradeDims raw) : ℚ) : ℝ) ≠ 0 :=
    ne_of_gt hsqrtpos
  have hunfold : makeDegradeEmbedding degradeDims raw =
      (degradeVals degradeDims raw).map fun v =>
        ((v : ℚ) : ℝ) /
          Real.sqrt ((sumSq (degradeVals degradeDims raw) : ℚ) : ℝ) := by
    simp only [makeDegradeEmbedding, hne, if_false]
  refine ⟨?_, ?_, ?_, ?_⟩
  · rw [hunfold, List.length_map, degradeVals_length]
  · rw [hunfold, List.map_map]
    have hfun : ((fun x => x ^ 2) ∘ fun v : ℚ =>
        ((v : ℚ) : ℝ) /
          Real.sqrt ((sumSq (degradeVals degradeDims raw) : ℚ) : ℝ)) =
        fun v : ℚ => ((v : ℚ) : ℝ) ^ 2 *
          ((Real.sqrt ((sumSq (degradeVals degradeDims raw) : ℚ) : ℝ)) ^ 2)⁻¹
        := by
      funext v
      simp only [Function.comp_apply, div_eq_mul_inv, mul_pow, inv_pow]
    rw [hfun, List.sum_map_mul_right, ← sumSq_cast,
      Real.sq_sqrt (le_of_lt hScast)]
    exact mul_inv_cancel₀ (ne_of_gt hScast)
  · intro v hv
    rcases degradeVals_mem_shape hraw hv with ⟨b, hb, rfl⟩
    have hble : (b : ℚ) ≤ 255 := by exact_mod_cast hbytes b hb
    have hb0 : (0 : ℚ) ≤ (b : ℚ) := Nat.cast_nonneg b
    constructor
    · nlinarith
    · nlinarith
  · intro shaBytes hashFn localModel apiKey remote cache1 cache2 text hm1 hm2
      hfail
    have hrun : ∀ cache : List (String × List ℝ),
        assocGet cache (hashFn text) = none →
        getEmbedding apiKey false localModel true
          (fun h => makeDegradeEmbedding degradeDims (shaBytes h)) remote
          hashFn cache text =
        ⟨some (makeDegradeEmbedding degradeDims (shaBytes (hashFn text))),
          assocSet cache (hashFn text)
            (makeDegradeEmbedding degradeDims (shaBytes (hashFn text))),
          apiKey.isSome, false⟩ := by
      intro cache hmiss
      rcases apiKey with _ | key
      · simp only [getEmbedding, hmiss]
        exact fallbackChain_degrade _ _ _ _ (Or.inl rfl)
      · have hr : remote text = none := by
          rcases hfail with h | h
          · cases h
          · exact h
        simp only [getEmbedding, hmiss, hr]
        exact fallbackChain_degrade _ _ _ _ (Or.inl rfl)
    rw [hrun cache1 hm1, hrun cache2 hm2]
    exact ⟨rfl, rfl⟩

/-- Witness for the degrade-embedding theorem at a concrete one-byte
digest. -/
theorem degrade_embedding_unit_norm_deterministic_witness :
    (makeDegradeEmbedding 1024 [7]).length = max 8 1024 :=
  (degrade_embedding_unit_norm_deterministic 1024 [7] (by decide)
    (by decide)).1

theorem dictRankAux_shift (d : String) (l : List String) :
    ∀ i, dictRankAux i d l = (dictRankAux 0 d l).map fun r => r + i := by
  induction l with
  | nil => intro i; rfl
  | cons x xs ih =>
    intro i
    simp only [dictRankAux]
    rw [ih (i + 1), ih 1]
    cases h0 : dictRankAux 0 d xs with
    | some r =>
      simp only [Option.map_some']
      congr 1
      omega
    | none =>
      by_cases hx : x = d
      · simp only [Option.map_none', hx, if_true, Option.map_some']
        congr 1
        omega
      · simp [hx]

theorem dictRankAux_not_mem {d : String} {l : List String} (h : d ∉ l) :
    ∀ i, dictRankAux i d l = none := by
  induction l with
  | nil => intro i; rfl
  | cons x xs ih =>
    intro i
    have hx : ¬ x = d := fun hc => h (hc ▸ List.mem_cons_self x xs)
    have hxs : d ∉ xs := fun hc => h (List.mem_cons_of_mem _ hc)
    simp [dictRankAux, ih hxs, hx]

theorem dictRank_eq_specRank {l : List String} {d : String} (hnd : l.Nodup)
    (hmem : d ∈ l) : dictRank l d = some (specRank d l) := by
  induction l with
  | nil => cases hmem
  | cons x xs ih =>
    rcases List.mem_cons.mp hmem with rfl | hin
    · have hnotin : d ∉ xs := (List.nodup_cons.mp hnd).1
      simp [dictRank, dictRankAux, dictRankAux_not_mem hnotin 1, specRank]
    · have hx : ¬ x = d := by
        rintro rfl
        exact (List.nodup_cons.mp hnd).1 hin
      have ihv := ih (List.nodup_cons.mp hnd).2 hin
      simp only [dictRank] at ihv
      simp [dictRank, dictRankAux, dictRankAux_shift d xs 1, ihv, specRank,
        hx]

theorem dictRank_not_mem {l : List String} {d : String} (h : d ∉ l) :
    dictRank l d = none :=
  dictRankAux_not_mem h 0

/-- C1: the weighted reciprocal-rank fusion: on the worked example with
lexical candidates A then B, vector candidates B then C, weights six
tenths and four tenths and constant sixty, the output (under every
legitimate set-iteration order of the candidate union) is B then A then C
with the stated scores; and in general the fused score of a document in
the union is the weighted reciprocal-rank term of each list it occurs in,
each term omitted when absent. -/
theorem fusion_score_formula_and_example :
    (∀ setOrder : List String, IsUnionOrder setOrder ["A", "B"] ["B", "C"] →
      searchTop (fun _ => true) setOrder ["A", "B"] ["B", "C"] (6 / 10)
        (4 / 10) 60 10 =
        [("B", 6 / 10 / 62 + 4 / 10 / 61), ("A", 6 / 10 / 61),
         ("C", 4 / 10 / 62)]) ∧
    (∀ (ftsIds vecIds : List String) (wFts wVec : ℚ) (rrfK : ℕ)
      (d : String), ftsIds.Nodup → vecIds.Nodup →
      (d ∈ ftsIds ∨ d ∈ vecIds) →
      fusedScore ftsIds vecIds wFts wVec rrfK d =
        (if d ∈ ftsIds then
          wFts / ((rrfK : ℚ) + (specRank d ftsIds : ℚ)) else 0) +
        (if d ∈ vecIds then
          wVec / ((rrfK : ℚ) + (specRank d vecIds : ℚ)) else 0)) := by
  constructor
  · rintro order ⟨hnd, hmem⟩
    have hmem3 : ∀ d, d ∈ order ↔ d ∈ ["A", "B", "C"] := by
      intro d
      rw [hmem d]
      simp only [List.mem_cons, List.mem_singleton, List.not_mem_nil,
        or_false]
      tauto
    have hperm : order.Perm ["A", "B", "C"] :=
      (List.perm_ext_iff_of_nodup hnd (by decide)).mpr hmem3
    have hlen : order.length = 3 := hperm.length_eq
    obtain _ | ⟨a, _ | ⟨b, _ | ⟨c, _ | ⟨d4, rest⟩⟩⟩⟩ := order
    · simp at hlen
    · simp at hlen
    · simp at hlen
    · have ha := (hmem3 a).1 (by simp)
      have hb := (hmem3 b).1 (by simp)
      have hc := (hmem3 c).1 (by simp)
      simp only [List.mem_cons, List.mem_singleton, List.not_mem_nil,
        or_false] at ha hb hc
      rcases ha with rfl | rfl | rfl <;> rcases hb with rfl | rfl | rfl <;>
        rcases hc with rfl | rfl | rfl <;>
        first
          | exact absurd hnd (by decide)
          | norm_num [searchTop, searchCombined, fusedScore, dictRank,
              dictRankAux, rrfScore, sortByScoreDesc, insertDesc,
              (by decide : ("A" : String) ≠ "B"),
              (by decide : ("A" : String) ≠ "C"),
              (by decide : ("B" : String) ≠ "A"),
              (by decide : ("B" : String) ≠ "C"),
              (by decide : ("C" : String) ≠ "A"),
              (by decide : ("C" : String) ≠ "B")]
    · simp at hlen
  · intro ftsIds vecIds wFts wVec rrfK d hnf hnv _
    by_cases hf : d ∈ ftsIds <;> by_cases hv : d ∈ vecIds
    · simp only [fusedScore, dictRank_eq_specRank hnf hf,
        dictRank_eq_specRank hnv hv, rrfScore, hf, hv, if_true]
      simp only [one_div, div_eq_mul_inv]
      ring
    · simp only [fusedScore, dictRank_eq_specRank hnf hf,
        dictRank_not_mem hv, rrfScore, hf, hv, if_true, if_false]
      simp only [one_div, div_eq_mul_inv]
      ring
    · simp only [fusedScore, dictRank_eq_specRank hnv hv,
        dictRank_not_mem hf, rrfScore, hf, hv, if_true, if_false]
      simp only [one_div, div_eq_mul_inv]
      ring
    · simp [fusedScore, dictRank_not_mem hf, dictRank_not_mem hv, hf, hv]

/-- Witness for the fusion theorem: the worked example evaluated at one
concrete iteration order, and the score formula at document B. -/
theorem fusion_score_formula_and_example_witness :
    searchTop (fun _ => true) ["A", "B", "C"] ["A", "B"] ["B", "C"] (6 / 10)
      (4 / 10) 60 10 =
      [("B", 6 / 10 / 62 + 4 / 10 / 61), ("A", 6 / 10 / 61),
       ("C", 4 / 10 / 62)] :=
  fusion_score_formula_and_example.1 ["A", "B", "C"]
    ⟨by decide, by
      intro d
      simp only [List.mem_cons, List.mem_singleton, List.not_mem_nil,
        or_false]
      tauto⟩

theorem mem_insertDesc {x y : String × ℚ} {l : List (String × ℚ)} :
    y ∈ insertDesc x l ↔ y = x ∨ y ∈ l := by
  induction l with
  | nil => simp [insertDesc]
  | cons z zs ih =>
    by_cases hlt : x.2 < z.2
    · simp only [insertDesc, hlt, if_true, List.mem_cons, ih]
      tauto
    · simp only [insertDesc, hlt, if_false, List.mem_cons]

theorem insertDesc_pairwise {x : String × ℚ} {l : List (String × ℚ)}
    (h : List.Pairwise (fun a b => b.2 ≤ a.2) l) :
    List.Pairwise (fun a b => b.2 ≤ a.2) (insertDesc x l) := by
  induction l with
  | nil => simp [insertDesc]
  | cons z zs ih =>
    rcases List.pairwise_cons.mp h with ⟨hz, hzs⟩
    by_cases hlt : x.2 < z.2
    · simp only [insertDesc, hlt, if_true]
      refine List.pairwise_cons.mpr ⟨?_, ih hzs⟩
      intro y hy
      rcases mem_insertDesc.mp hy with rfl | hy'
      · exact le_of_lt hlt
      · exact hz y hy'
    · simp only [insertDesc, hlt, if_false]
      have hzx : z.2 ≤ x.2 := le_of_not_lt hlt
      refine List.pairwise_cons.mpr ⟨?_, h⟩
      intro y hy
      rcases List.mem_cons.mp hy with rfl | hy'
      · exact hzx
      · exact le_trans (hz y hy') hzx

theorem sortByScoreDesc_pairwise (l : List (String × ℚ)) :
    List.Pairwise (fun a b => b.2 ≤ a.2) (sortByScoreDesc l) := by
  induction l with
  | nil => simp [sortByScoreDesc]
  | cons x xs ih => exact insertDesc_pairwise ih

/-- C4 counterexample: with lexical candidate A only and vector candidate
B only at equal weights, the two fused scores tie; under the legitimate
set-iteration order B then A the returned order is B then A, not the
lexical-first stable order A then B that the claim states. -/
theorem search_tie_order_counterexample :
    IsUnionOrder ["B", "A"] ["A"] ["B"] ∧
    fusedScore ["A"] ["B"] (1 / 2) (1 / 2) 60 "A" =
      fusedScore ["A"] ["B"] (1 / 2) (1 / 2) 60 "B" ∧
    (searchTop (fun _ => true) ["B", "A"] ["A"] ["B"] (1 / 2) (1 / 2) 60
      10).map Prod.fst = ["B", "A"] ∧
    (["B", "A"] : List String) ≠ ["A", "B"] := by
  refine ⟨⟨by decide, ?_⟩, ?_, ?_, by decide⟩
  · intro d
    simp only [List.mem_cons, List.mem_singleton, List.not_mem_nil,
      or_false]
    tauto
  · norm_num [fusedScore, dictRank, dictRankAux, rrfScore,
      (by decide : ("A" : String) ≠ "B"), (by decide : ("B" : String) ≠ "A")]
  · norm_num [searchTop, searchCombined, fusedScore, dictRank, dictRankAux,
      rrfScore, sortByScoreDesc, insertDesc,
      (by decide : ("A" : String) ≠ "B"), (by decide : ("B" : String) ≠ "A")]

/-- C4 as amended: the fused result list is sorted by fused score in
descending order, for every set-iteration order; the relative order of
equal-score documents is whatever the set iteration produced, which is
unspecified, not the stable lexical-then-vector input order the claim
states. -/
theorem search_results_sorted_desc :
    ∀ (docOk : String → Bool) (setOrder ftsIds vecIds : List String)
      (wFts wVec : ℚ) (rrfK topK : ℕ),
      List.Pairwise (fun a b => b.2 ≤ a.2)
        (searchTop docOk setOrder ftsIds vecIds wFts wVec rrfK topK) := by
  intro docOk setOrder ftsIds vecIds wFts wVec rrfK topK
  exact List.Pairwise.sublist (List.take_sublist _ _)
    (sortByScoreDesc_pairwise _)

/-- C6 counterexample: two stored vectors of dimensions one and two. The
rebuild does not skip the mismatched vector: stacking raises, so the
rebuild fails, and the output the claim predicts (an index holding
exactly the first vector) is not produced. -/
theorem rebuild_mixed_dims_error :
    rebuildIndex [("a", [1]), ("b", [1, 2])] =
      Except.error "vstack: all the input array dimensions must match" ∧
    rebuildIndex [("a", [1]), ("b", [1, 2])] ≠
      Except.ok (some ([[(1 : ℚ)]], [(0, "a")])) := by
  have h1 : rebuildIndex [("a", [1]), ("b", [1, 2])] =
      Except.error "vstack: all the input array dimensions must match" := rfl
  refine ⟨h1, ?_⟩
  rw [h1]
  simp

/-- C6 as amended: the rebuild skips exactly the zero-length vectors; when
the remaining vectors all share one dimension the index holds exactly
those vectors with the enumerated ordinal map, but a vector whose
dimension differs from the first valid vector makes the stacking step
fail (it is not skipped or counted). -/
theorem rebuild_index_amended :
    ∀ rows : List (String × List ℚ),
      ((∀ r ∈ rows.filter (fun r => !r.2.isEmpty),
        ∀ s ∈ rows.filter (fun r => !r.2.isEmpty),
          r.2.length = s.2.length) →
        rebuildIndex rows =
          .ok (if (rows.filter (fun r => !r.2.isEmpty)).isEmpty then none
            else some ((rows.filter (fun r => !r.2.isEmpty)).map
                (fun r => r.2),
              (rows.filter (fun r => !r.2.isEmpty)).enum.map
                fun p => (p.1, p.2.1)))) ∧
      ((∃ r ∈ rows.filter (fun r => !r.2.isEmpty),
        ∃ s ∈ rows.filter (fun r => !r.2.isEmpty),
          r.2.length ≠ s.2.length) →
        rebuildIndex rows =
          .error "vstack: all the input array dimensions must match") := by
  intro rows
  cases hrows : rows with
  | nil =>
    constructor
    · intro _
      rfl
    · rintro ⟨r, hr, -⟩
      simp at hr
  | cons row rest =>
    cases hval : (row :: rest).filter (fun r => !r.2.isEmpty) with
    | nil =>
      constructor
      · intro _
        simp [rebuildIndex, hval]
      · rintro ⟨r, hr, -⟩
        cases hr
    | cons v0 vrest =>
      obtain ⟨d0, w0⟩ := v0
      constructor
      · intro h
        have hall : (((d0, w0) :: vrest).all
            (fun r => r.2.length = w0.length)) = true := by
          rw [List.all_eq_true]
          intro r hr
          have := h r hr (d0, w0) (List.mem_cons_self _ _)
          simpa using this
        simp [rebuildIndex, hval, hall]
      · rintro ⟨r, hr, s, hs, hne⟩
        have hnall : (((d0, w0) :: vrest).all
            (fun r => r.2.length = w0.length)) = false := by
          cases hb : ((d0, w0) :: vrest).all
              (fun r => r.2.length = w0.length)
          · rfl
          · exfalso
            rw [List.all_eq_true] at hb
            have h1 := hb r hr
            have h2 := hb s hs
            simp at h1 h2
            exact hne (h1.trans h2.symm)
        simp [rebuildIndex, hval, hnall]

/-- Witness for the amended rebuild theorem: one nonempty stored vector of
dimension two is indexed as ordinal zero. -/
theorem rebuild_index_amended_witness :
    rebuildIndex [("a", [1, 2])] =
      .ok (if (([("a", [1, 2])] : List (String × List ℚ)).filter
          (fun r => !r.2.isEmpty)).isEmpty then none
        else some ((([("a", [1, 2])] : List (String × List ℚ)).filter
            (fun r => !r.2.isEmpty)).map (fun r => r.2),
          (([("a", [1, 2])] : List (String × List ℚ)).filter
            (fun r => !r.2.isEmpty)).enum.map fun p => (p.1, p.2.1))) :=
  (rebuild_index_amended [("a", [1, 2])]).1 (by decide)

theorem stripChars_length_le (l : List Char) :
    (stripChars l).length ≤ l.length := by
  unfold stripChars
  calc ((l.dropWhile isSpaceChar).reverse.dropWhile
          isSpaceChar).reverse.length
      = ((l.dropWhile isSpaceChar).reverse.dropWhile isSpaceChar).length :=
        List.length_reverse _
    _ ≤ (l.dropWhile isSpaceChar).reverse.length :=
        ((l.dropWhile isSpaceChar).reverse.dropWhile_sublist
          isSpaceChar).length_le
    _ = (l.dropWhile isSpaceChar).length := List.length_reverse _
    _ ≤ l.length := (l.dropWhile_sublist isSpaceChar).length_le

theorem mergeRun_length_le {maxChars : ℕ} :
    ∀ (rest : List (List Char)) (merged : List Char),
      merged.length ≤ maxChars →
      (mergeRun maxChars merged rest).1.length ≤ maxChars := by
  intro rest
  induction rest with
  | nil => intro merged h; exact h
  | cons p ps ih =>
    intro merged h
    by_cases hfit : merged.length + p.length + 2 ≤ maxChars
    · simp only [mergeRun, hfit, if_true]
      exact ih _ (by simp [List.length_append]; omega)
    · simp only [mergeRun, hfit, if_false]
      exact h

theorem sentFold_bounds {maxLen : ℕ} :
    ∀ (sentences chunks0 : List (List Char)) (buf0 : List Char),
      buf0.length ≤ maxLen → (∀ c ∈ chunks0, c.length ≤ maxLen) →
      (∀ s ∈ sentences, s.length + 1 ≤ maxLen) →
      (∀ c ∈ (sentences.foldl (sentenceFold maxLen) (chunks0, buf0)).1,
        c.length ≤ maxLen) ∧
      (sentences.foldl (sentenceFold maxLen) (chunks0, buf0)).2.length ≤
        maxLen := by
  intro sentences
  induction sentences with
  | nil => intro chunks0 buf0 hb hc _; exact ⟨hc, hb⟩
  | cons s ss ih =>
    intro chunks0 buf0 hb hc hs
    rw [List.foldl_cons]
    by_cases hfit : buf0.length + s.length + 1 ≤ maxLen
    · rw [show sentenceFold maxLen (chunks0, buf0) s =
          (chunks0, buf0 ++ s ++ [' ']) from by simp [sentenceFold, hfit]]
      exact ih _ _ (by simp [List.length_append]; omega) hc
        (fun t ht => hs t (List.mem_cons_of_mem _ ht))
    · have hs1 : s.length + 1 ≤ maxLen := hs s (List.mem_cons_self _ _)
      rw [show sentenceFold maxLen (chunks0, buf0) s =
          ((if buf0.isEmpty then chunks0
            else chunks0 ++ [stripChars buf0]), s ++ [' ']) from by
          simp [sentenceFold, hfit]]
      refine ih _ _ (by simp; omega) ?_
        (fun t ht => hs t (List.mem_cons_of_mem _ ht))
      by_cases hbe : buf0.isEmpty
      · simpa [hbe] using hc
      · simp only [hbe, Bool.false_eq_true, if_false]
        intro c hcm
        rcases List.mem_append.mp hcm with h1 | h1
        · exact hc c h1
        · rcases List.mem_singleton.mp h1 with rfl
          exact le_trans (stripChars_length_le _) hb

theorem chunk_by_sentences_le {t : List Char} {maxLen : ℕ}
    (hs : ∀ s ∈ splitSentences t, s.length + 1 ≤ maxLen) :
    ∀ c ∈ chunk_by_sentences t maxLen, c.length ≤ maxLen := by
  intro c hc
  have h := sentFold_bounds (splitSentences t) [] [] (by simp) (by simp) hs
  unfold chunk_by_sentences at hc
  by_cases hbe : ((splitSentences t).foldl (sentenceFold maxLen)
      ([], [])).2.isEmpty
  · rw [if_pos hbe] at hc
    exact h.1 c hc
  · rw [if_neg hbe] at hc
    rcases List.mem_append.mp hc with h1 | h1
    · exact h.1 c h1
    · rcases List.mem_singleton.mp h1 with rfl
      exact le_trans (stripChars_length_le _) h.2

theorem chunkDocGo_bounds {maxChars minChars : ℕ}
    (hmm : minChars ≤ maxChars) (source path sect : String) :
    ∀ (fuel i : ℕ) (ps : List (List Char)) (c : Chunk),
      c ∈ chunkDocGo maxChars minChars source path sect fuel i ps →
      minChars ≤ c.text.length ∧
      ((∀ p ∈ ps, ∀ s ∈ splitSentences p, s.length + 1 ≤ maxChars) →
        c.text.length ≤ maxChars) := by
  intro fuel
  induction fuel with
  | zero =>
    intro i ps c hc
    rw [show chunkDocGo maxChars minChars source path sect 0 i ps = []
      from by cases ps <;> rfl] at hc
    cases hc
  | succ fuel ih =>
    intro i ps c hc
    cases ps with
    | nil => cases hc
    | cons p rest =>
      by_cases h1 : minChars ≤ p.length ∧ p.length ≤ maxChars
      · rw [show chunkDocGo maxChars minChars source path sect (fuel + 1) i
            (p :: rest) =
            ⟨p, source, path, sect ++ "_para_" ++ toString i⟩ ::
              chunkDocGo maxChars minChars source path sect fuel (i + 1)
                rest from by
            simp [chunkDocGo, h1]] at hc
        rcases List.mem_cons.mp hc with rfl | hc'
        · exact ⟨h1.1, fun _ => h1.2⟩
        · rcases ih (i + 1) rest c hc' with ⟨hlo, hhi⟩
          exact ⟨hlo, fun hp => hhi fun q hq =>
            hp q (List.mem_cons_of_mem _ hq)⟩
      · by_cases h2 : p.length < minChars
        · rw [show chunkDocGo maxChars minChars source path sect (fuel + 1)
              i (p :: rest) =
              (if minChars ≤ (mergeRun maxChars p rest).1.length then
                [⟨(mergeRun maxChars p rest).1, source, path,
                  sect ++ "_merged_" ++ toString i ++ "_" ++
                    toString (i + (mergeRun maxChars p rest).2)⟩]
              else []) ++
                chunkDocGo maxChars minChars source path sect fuel
                  (i + 1 + (mergeRun maxChars p rest).2)
                  (rest.drop (mergeRun maxChars p rest).2) from by
              simp [chunkDocGo, h1, h2]] at hc
          rcases List.mem_append.mp hc with h3 | h3
          · by_cases h4 : minChars ≤ (mergeRun maxChars p rest).1.length
            · rw [if_pos h4] at h3
              rcases List.mem_singleton.mp h3 with rfl
              refine ⟨h4, fun _ => ?_⟩
              exact mergeRun_length_le rest p (le_trans (le_of_lt h2) hmm)
            · rw [if_neg h4] at h3
              cases h3
          · rcases ih _ _ c h3 with ⟨hlo, hhi⟩
            exact ⟨hlo, fun hp => hhi fun q hq =>
              hp q (List.mem_cons_of_mem _ (List.drop_subset _ _ hq))⟩
        · rw [show chunkDocGo maxChars minChars source path sect (fuel + 1)
              i (p :: rest) =
              ((chunk_by_sentences p maxChars).enum.filterMap fun jt =>
                if minChars ≤ jt.2.length then
                  some ⟨jt.2, source, path,
                    sect ++ "_sent_" ++ toString i ++ "_" ++ toString jt.1⟩
                else none) ++
                chunkDocGo maxChars minChars source path sect fuel (i + 1)
                  rest from by
              simp [chunkDocGo, h1, h2]] at hc
          rcases List.mem_append.mp hc with h3 | h3
          · rcases List.mem_filterMap.mp h3 with ⟨jt, hjt, hsome⟩
            by_cases h5 : minChars ≤ jt.2.length
            · rw [if_pos h5] at hsome
              rcases Option.some_injective _ hsome with rfl
              refine ⟨h5, fun hp => ?_⟩
              have hsent := hp p (List.mem_cons_self _ _)
              exact chunk_by_sentences_le hsent jt.2
                (List.snd_mem_of_mem_enum hjt)
            · rw [if_neg h5] at hsome
              cases hsome
          · rcases ih (i + 1) rest c h3 with ⟨hlo, hhi⟩
            exact ⟨hlo, fun hp => hhi fun q hq =>
              hp q (List.mem_cons_of_mem _ hq)⟩

theorem stripChars_plain {l : List Char}
    (h : ∀ c ∈ l, isSpaceChar c = false) : stripChars l = l := by
  have h1 : l.dropWhile isSpaceChar = l := by
    rw [List.dropWhile_eq_self_iff]
    intro hl
    simpa using h (l.get ⟨0, hl⟩) (l.get_mem _ _)
  have h2 : l.reverse.dropWhile isSpaceChar = l.reverse := by
    rw [List.dropWhile_eq_self_iff]
    intro hl
    have hm : l.reverse.get ⟨0, hl⟩ ∈ l :=
      List.mem_reverse.mp (l.reverse.get_mem _ _)
    simpa using h _ hm
  unfold stripChars
  rw [h1, h2, List.reverse_reverse]

theorem stripChars_append_space {l : List Char}
    (h : ∀ c ∈ l, isSpaceChar c = false) (hne : l ≠ []) :
    stripChars (l ++ [' ']) = l := by
  obtain ⟨c, cs, rfl⟩ := List.exists_cons_of_ne_nil hne
  have hfront : ((c :: cs) ++ [' ']).dropWhile isSpaceChar =
      (c :: cs) ++ [' '] := by
    rw [List.cons_append, List.dropWhile_cons]
    simp [h c (List.mem_cons_self _ _)]
  have hrevne : (c :: cs).reverse ≠ [] := by simp
  obtain ⟨d, ds, hds⟩ := List.exists_cons_of_ne_nil hrevne
  have hd : d ∈ c :: cs := by
    rw [← List.mem_reverse, hds]
    exact List.mem_cons_self _ _
  unfold stripChars
  rw [hfront, show ((c :: cs) ++ [' ']).reverse =
    ' ' :: (c :: cs).reverse from by simp]
  rw [List.dropWhile_cons]
  simp only [show isSpaceChar ' ' = true from rfl, if_true]
  rw [hds, List.dropWhile_cons]
  simp only [h d hd, Bool.false_eq_true, if_false]
  rw [← hds, List.reverse_reverse]

theorem splitParasGo_plain :
    ∀ (l pieceR : List Char), (∀ c ∈ l, isSpaceChar c = false) →
      splitParasGo pieceR [] l = [pieceR.reverse ++ l] := by
  intro l
  induction l with
  | nil =>
    intro pieceR _
    simp [splitParasGo]
  | cons c cs ih =>
    intro pieceR h
    have hc : isSpaceChar c = false := h c (List.mem_cons_self _ _)
    rw [show splitParasGo pieceR [] (c :: cs) =
        splitParasGo (c :: ([] ++ pieceR)) [] cs from by
      simp [splitParasGo, hc]]
    rw [ih _ (fun d hd => h d (List.mem_cons_of_mem _ hd))]
    simp

theorem splitSentencesGo_plain :
    ∀ (l pieceR : List Char) (lastEnd : Bool),
      (∀ c ∈ l, isSpaceChar c = false) →
      splitSentencesGo pieceR lastEnd false l = [pieceR.reverse ++ l] := by
  intro l
  induction l with
  | nil =>
    intro pieceR lastEnd _
    simp [splitSentencesGo]
  | cons c cs ih =>
    intro pieceR lastEnd h
    have hc : isSpaceChar c = false := h c (List.mem_cons_self _ _)
    rw [show splitSentencesGo pieceR lastEnd false (c :: cs) =
        splitSentencesGo (c :: pieceR) (isSentenceEnd c) false cs from by
      simp [splitSentencesGo, hc]]
    rw [ih _ _ (fun d hd => h d (List.mem_cons_of_mem _ hd))]
    simp

theorem chunk_by_paragraphs_plain {l : List Char}
    (h : ∀ c ∈ l, isSpaceChar c = false) (hne : l ≠ []) :
    chunk_by_paragraphs l = [l] := by
  unfold chunk_by_paragraphs splitParas
  rw [splitParasGo_plain l [] h]
  simp [stripChars_plain h, hne]

theorem chunk_by_sentences_plain {l : List Char} {maxLen : ℕ}
    (h : ∀ c ∈ l, isSpaceChar c = false) (hne : l ≠ [])
    (hlong : ¬ (l.length + 1 ≤ maxLen)) :
    chunk_by_sentences l maxLen = [l] := by
  unfold chunk_by_sentences splitSentences
  rw [splitSentencesGo_plain l [] false h]
  simp only [List.reverse_nil, List.nil_append, List.foldl_cons,
    List.foldl_nil]
  rw [show sentenceFold maxLen ([], []) l = ([], l ++ [' ']) from by
    simp only [sentenceFold]
    rw [if_neg (by simp; omega)]
    simp]
  rw [if_neg (by simp)]
  rw [stripChars_append_space h hne]
  simp

set_option maxRecDepth 8000 in
/-- C3 counterexample: a single 2001-character paragraph with no sentence
boundary. The sentence-splitting path emits it as one chunk of length
2001, which exceeds the default max_chars of 2000, refuting the claimed
upper bound. -/
theorem chunk_oversized_sentence_escapes_max :
    (chunkDocument MAX_CHARS MIN_CHARS (List.replicate 2001 'a') "notes"
      "p.md" "p").map (fun c => c.text.length) = [2001] ∧
    ¬ (2001 ≤ MAX_CHARS) := by
  constructor
  · have hplain : ∀ c ∈ List.replicate 2001 'a', isSpaceChar c = false := by
      intro c hc
      rw [List.eq_of_mem_replicate hc]
      rfl
    have hne : List.replicate 2001 'a' ≠ [] := by
      intro hcon
      have h := congrArg List.length hcon
      rw [List.length_replicate, List.length_nil] at h
      omega
    have hlen : (List.replicate 2001 'a').length = 2001 :=
      List.length_replicate _ _
    have hps := chunk_by_paragraphs_plain hplain hne
    have hsent : chunk_by_sentences (List.replicate 2001 'a') MAX_CHARS =
        [List.replicate 2001 'a'] := by
      refine chunk_by_sentences_plain hplain hne ?_
      rw [hlen]
      decide
    unfold chunkDocument
    rw [hps]
    rw [show chunkDocGo MAX_CHARS MIN_CHARS "notes" "p.md" "p"
        [List.replicate 2001 'a'].length 0 [List.replicate 2001 'a'] =
        ((chunk_by_sentences (List.replicate 2001 'a') MAX_CHARS).enum.filterMap
          fun jt =>
            if MIN_CHARS ≤ jt.2.length then
              some ⟨jt.2, "notes", "p.md",
                "p" ++ "_sent_" ++ toString 0 ++ "_" ++ toString jt.1⟩
            else none) ++
          chunkDocGo MAX_CHARS MIN_CHARS "notes" "p.md" "p" 0 1 [] from by
      simp only [List.length_singleton]
      rw [show chunkDocGo MAX_CHARS MIN_CHARS "notes" "p.md" "p" 1 0
          [List.replicate 2001 'a'] =
          chunkDocGo MAX_CHARS MIN_CHARS "notes" "p.md" "p" (0 + 1) 0
            [List.replicate 2001 'a'] from rfl]
      simp only [chunkDocGo]
      rw [if_neg (by rw [hlen]; decide), if_neg (by rw [hlen]; decide)]]
    rw [hsent]
    simp only [List.enum, List.enumFrom, List.filterMap]
    rw [if_pos (by rw [hlen]; decide)]
    simp [hlen, chunkDocGo]
  · decide

/-- C3 as amended: every chunk the chunker emits (at the default bounds)
has length at least min_chars, and has length at most max_chars provided
every sentence of every paragraph fits within max_chars (one character of
joining space included); a paragraph containing a single sentence longer
than max_chars escapes the upper bound, as the counterexample shows. -/
theorem chunk_bounds_amended :
    ∀ (text : List Char) (source path sect : String) (c : Chunk),
      c ∈ chunkDocument MAX_CHARS MIN_CHARS text source path sect →
      MIN_CHARS ≤ c.text.length ∧
      ((∀ p ∈ chunk_by_paragraphs text, ∀ s ∈ splitSentences p,
        s.length + 1 ≤ MAX_CHARS) → c.text.length ≤ MAX_CHARS) := by
  intro text source path sect c hc
  exact chunkDocGo_bounds (by decide) source path sect _ 0
    (chunk_by_paragraphs text) c hc

set_option maxRecDepth 4000 in
/-- Witness for the amended chunk-bounds theorem: a 150-character
paragraph is emitted as one chunk whose length lies within the bounds. -/
theorem chunk_bounds_amended_witness :
    MIN_CHARS ≤
      (⟨List.replicate 150 'b', "notes", "p.md", "p_para_0"⟩ :
        Chunk).text.length ∧
    ((∀ p ∈ chunk_by_paragraphs (List.replicate 150 'b'),
      ∀ s ∈ splitSentences p, s.length + 1 ≤ MAX_CHARS) →
      (⟨List.replicate 150 'b', "notes", "p.md", "p_para_0"⟩ :
        Chunk).text.length ≤ MAX_CHARS) :=
  chunk_bounds_amended (List.replicate 150 'b') "notes" "p.md" "p"
    ⟨List.replicate 150 'b', "notes", "p.md", "p_para_0"⟩ (by decide)

/-- C5: evaluation of the ingest loop on a file whose stat succeeds but
whose read fails. The scan loop records the file's current signature in
the next ledger before attempting the read, and saves it, so the
persisted entry changes from the old signature to the new one and the
next incremental run does not select the file again — the file produces
no chunks in either run. This contradicts the claim that the ledger entry
is left unchanged and the file retried. -/
theorem ingest_unreadable_file_ledger_updated :
    (ingestRun [] [] (fun _ => true)
      [(⟨"notes/a.md", 5, 7, none⟩, "notes")]
      [("notes/a.md", ((4 : ℤ), (7 : ℤ)))]
      (some [("notes/a.md", ((4 : ℤ), (7 : ℤ)))]) 1000 none false
      false).chunks = [] ∧
    (ingestRun [] [] (fun _ => true)
      [(⟨"notes/a.md", 5, 7, none⟩, "notes")]
      [("notes/a.md", ((4 : ℤ), (7 : ℤ)))]
      (some [("notes/a.md", ((4 : ℤ), (7 : ℤ)))]) 1000 none false
      false).disk = some [("notes/a.md", ((5 : ℤ), (7 : ℤ)))] ∧
    ([("notes/a.md", ((5 : ℤ), (7 : ℤ)))] : Ledger) ≠
      [("notes/a.md", ((4 : ℤ), (7 : ℤ)))] ∧
    shouldProcessFile [("notes/a.md", ((5 : ℤ), (7 : ℤ)))] 2000
      ⟨"notes/a.md", 5, 7, none⟩ none false = false := by
  refine ⟨by decide, by decide, by decide, by decide⟩

end HybridSearch
